import Mathlib

/-!
Shallow embedding of the `openwebvulndb` core: the securityfocus tab
parsers (`openwebvulndb/common/securityfocus/parsers.py`) and the
file-backed `Storage` class (`openwebvulndb/common/storage.py`),
together with proofs of the specification's testable properties.
-/

namespace OpenWebVulnDb

/-! ## Python primitives: whitespace, strip, substring containment -/

/-- Python's `\s` character class (ASCII part): space, tab, newline,
carriage return, vertical tab, form feed. -/
def isPyWs (c : Char) : Bool :=
  c = ' ' || c = '\t' || c = '\n' || c = '\r' || c = Char.ofNat 11 || c = Char.ofNat 12

/-- Remove the trailing characters satisfying `p`. -/
def rstripP (p : Char → Bool) : List Char → List Char
  | [] => []
  | c :: rest =>
    match rstripP p rest with
    | [] => if p c then [] else [c]
    | r => c :: r

/-- Remove trailing whitespace characters (the right half of Python's
`str.strip()`). -/
def rstripWs (l : List Char) : List Char :=
  rstripP isPyWs l

/-- Python `str.strip()` on a character list: drop leading whitespace,
then trailing whitespace. -/
def pyStripList (l : List Char) : List Char :=
  rstripWs (l.dropWhile isPyWs)

/-- Python `str.strip()`. -/
def pyStrip (s : String) : String :=
  ⟨pyStripList s.data⟩

/-- Scanner for `re.sub('\s\s+', ' ', ·)`.  The flag records whether the
scanner is inside a whitespace run that has already been collapsed to a
single emitted space (such characters are consumed silently). -/
def subAux : Bool → List Char → List Char
  | _, [] => []
  | true, c :: rest =>
    if isPyWs c then subAux true rest else c :: subAux false rest
  | false, c :: rest =>
    if isPyWs c then
      match rest with
      | [] => [c]
      | d :: rest' =>
        if isPyWs d then ' ' :: subAux true rest'
        else c :: subAux false (d :: rest')
    else c :: subAux false rest

/-- `re.sub('\s\s+', ' ', ·)` on a character list: every maximal run of
two or more whitespace characters is replaced by a single space; a lone
whitespace character is left unchanged. -/
def subWsWs (l : List Char) : List Char :=
  subAux false l

/-- `strip_whitespaces` from `parsers.py`: `re.sub('\s\s+', ' ', string)`
followed by `.strip()`. -/
def strip_whitespaces (s : String) : String :=
  ⟨pyStripList (subWsWs s.data)⟩

/-- `needle` is a prefix of `haystack` (character-list level). -/
def startsWithChars : List Char → List Char → Bool
  | [], _ => true
  | _ :: _, [] => false
  | a :: as, b :: bs => a = b && startsWithChars as bs

/-- Python's `needle in haystack` substring test on character lists. -/
def hasSubstrChars (needle : List Char) : List Char → Bool
  | [] => startsWithChars needle []
  | h :: t => startsWithChars needle (h :: t) || hasSubstrChars needle t

/-- Python's `needle in haystack` substring test on strings. -/
def containsSubstr (needle haystack : String) : Bool :=
  hasSubstrChars needle.data haystack.data

/-- No two adjacent whitespace characters anywhere in the list. -/
def noDoubleWs : List Char → Bool
  | [] => true
  | [_] => true
  | a :: b :: rest => !(isPyWs a && isPyWs b) && noDoubleWs (b :: rest)

/-- The first character, when present, is not whitespace. -/
def headNotWs : List Char → Bool
  | [] => true
  | c :: _ => !isPyWs c

/-- The last character, when present, is not whitespace. -/
def lastNotWs : List Char → Bool
  | [] => true
  | [c] => !isPyWs c
  | _ :: c :: rest => lastNotWs (c :: rest)

/-- Scanner for the normalization the specification's sentence
describes, in which EVERY maximal whitespace run — even a single
character — becomes one space.  The flag records being inside a
run whose single space has already been emitted. -/
def specCollapseAux : Bool → List Char → List Char
  | _, [] => []
  | inRun, c :: rest =>
    if isPyWs c then
      if inRun then specCollapseAux true rest
      else ' ' :: specCollapseAux true rest
    else c :: specCollapseAux false rest

/-- Normalization as the specification's words describe it ("any run of
whitespace characters collapses to a single space", then leading and
trailing whitespace removed).  Defined from the spec's words, for
comparison with the source's `strip_whitespaces`. -/
def specNormalizeWs (s : String) : String :=
  ⟨pyStripList (specCollapseAux false s.data)⟩

/-! ## Python exceptions relevant to the embedded code -/

/-- Decidable equality for `Except` results, so that concrete runs of the
embedded fallible functions can be checked by `decide`. -/
def Except.decEq {ε α : Type} [DecidableEq ε] [DecidableEq α] :
    (a b : Except ε α) → Decidable (a = b)
  | .ok a, .ok b =>
    if h : a = b then .isTrue (by rw [h]) else .isFalse (by simp [h])
  | .error a, .error b =>
    if h : a = b then .isTrue (by rw [h]) else .isFalse (by simp [h])
  | .ok _, .error _ => .isFalse (by simp)
  | .error _, .ok _ => .isFalse (by simp)

instance {ε α : Type} [DecidableEq ε] [DecidableEq α] : DecidableEq (Except ε α) :=
  Except.decEq

/-- The Python exception classes that the embedded functions can raise. -/
inductive PyError where
  /-- `IndexError`: subscripting an empty xpath result list. -/
  | indexError
  /-- `TypeError`: e.g. `str + None` or `strptime(None, fmt)`. -/
  | typeError
  /-- `ValueError`: e.g. `strptime` on text not matching the format. -/
  | valueError
deriving DecidableEq, Repr

/-! ## Info tab parser (`InfoTabParser`)

The info tab is a table of label/value rows
`<tr><td><span>label</span></td><td>value</td></tr>`.  The xpath
`//span[text() = name]/../../td[2]/text()` collects, in document order,
the direct text nodes of the second cell of every row whose label span
text equals `name`.  We embed the document as that list of rows. -/

/-- One label/value table row of the info tab: the label span's text and
the list of direct text nodes of the second `<td>`. -/
structure InfoRow where
  label : String
  cellTexts : List String
deriving DecidableEq, Repr

/-- An info-tab document: its label/value rows in document order. -/
def InfoDoc := List InfoRow

/-- The xpath `//span[text() = name]/../../td[2]/text()`: all second-cell
text nodes of rows labeled `name`, in document order. -/
def xpathLabelTexts (doc : InfoDoc) (name : String) : List String :=
  ((doc.filter (fun r => r.label = name)).map (fun r => r.cellTexts)).flatten

/-- `InfoTabParser._parse_element`: take the xpath result list, subscript
its first element (raising `IndexError` when the list is empty), strip
it, and return `None` for an empty remainder, the stripped value
otherwise. -/
def parse_element (doc : InfoDoc) (element_name : String) :
    Except PyError (Option String) :=
  match xpathLabelTexts doc element_name with
  | [] => .error .indexError
  | v :: _ =>
    let v := pyStrip v
    if v.data.length = 0 then .ok none else .ok (some v)

/-! ## `datetime.strptime` with format `"%b %d %Y %I:%M%p"`

CPython's `strptime` compiles the format to a regex (matched
case-insensitively, so we lowercase the input first): `%b` is an
abbreviated month name, a literal space is `\s+`, `%d` is
`(3[01]|[12]\d|0[1-9]|[1-9])`, `%Y` is four digits, `%I` is
`(1[0-2]|0[1-9]|[1-9])`, `%M` is `([0-5]\d|\d)`, `%p` is `(am|pm)`;
trailing unconverted data is an error, and the matched fields must form
a valid calendar date. -/

/-- Numeric value of a decimal digit character. -/
def digitVal (c : Char) : Nat := c.toNat - 48

/-- Match one abbreviated month name (lowercased) as a prefix, returning
the 1-based month number and the remaining input. -/
def parseMonthAux : Nat → List (List Char) → List Char → Option (Nat × List Char)
  | _, [], _ => none
  | i, m :: ms, l =>
    if startsWithChars m l then some (i, l.drop m.length) else parseMonthAux (i + 1) ms l

/-- The lowercased month abbreviations recognized by `%b` (C locale). -/
def monthAbbrevs : List (List Char) :=
  ["jan".data, "feb".data, "mar".data, "apr".data, "may".data, "jun".data,
   "jul".data, "aug".data, "sep".data, "oct".data, "nov".data, "dec".data]

/-- `%b`: one abbreviated month name. -/
def parseMonth (l : List Char) : Option (Nat × List Char) :=
  parseMonthAux 1 monthAbbrevs l

/-- A literal whitespace in the format: `\s+` (one or more whitespace
characters). -/
def parseWs1 : List Char → Option (List Char)
  | [] => none
  | c :: rest => if isPyWs c then some (rest.dropWhile isPyWs) else none

/-- `%d`: `(3[01]|[12]\d|0[1-9]|[1-9])`. -/
def parseDay : List Char → Option (Nat × List Char)
  | '3' :: '0' :: rest => some (30, rest)
  | '3' :: '1' :: rest => some (31, rest)
  | c :: d :: rest =>
    if (c = '1' ∨ c = '2') ∧ d.isDigit then some (digitVal c * 10 + digitVal d, rest)
    else if c = '0' ∧ d.isDigit ∧ d ≠ '0' then some (digitVal d, rest)
    else if c.isDigit ∧ c ≠ '0' then some (digitVal c, d :: rest)
    else none
  | [c] => if c.isDigit ∧ c ≠ '0' then some (digitVal c, []) else none
  | [] => none

/-- `%Y`: exactly four digits. -/
def parseYear4 : List Char → Option (Nat × List Char)
  | a :: b :: c :: d :: rest =>
    if a.isDigit ∧ b.isDigit ∧ c.isDigit ∧ d.isDigit then
      some (((digitVal a * 10 + digitVal b) * 10 + digitVal c) * 10 + digitVal d, rest)
    else none
  | _ => none

/-- `%I`: `(1[0-2]|0[1-9]|[1-9])`. -/
def parseHour12 : List Char → Option (Nat × List Char)
  | '1' :: '0' :: rest => some (10, rest)
  | '1' :: '1' :: rest => some (11, rest)
  | '1' :: '2' :: rest => some (12, rest)
  | c :: d :: rest =>
    if c = '0' ∧ d.isDigit ∧ d ≠ '0' then some (digitVal d, rest)
    else if c.isDigit ∧ c ≠ '0' then some (digitVal c, d :: rest)
    else none
  | [c] => if c.isDigit ∧ c ≠ '0' then some (digitVal c, []) else none
  | [] => none

/-- `%M`: `([0-5]\d|\d)`. -/
def parseMinute : List Char → Option (Nat × List Char)
  | c :: d :: rest =>
    if c.isDigit ∧ digitVal c ≤ 5 ∧ d.isDigit then some (digitVal c * 10 + digitVal d, rest)
    else if c.isDigit then some (digitVal c, d :: rest)
    else none
  | [c] => if c.isDigit then some (digitVal c, []) else none
  | [] => none

/-- `%p`: `(am|pm)` (input already lowercased); `true` means PM. -/
def parseAmPm (l : List Char) : Option (Bool × List Char) :=
  if startsWithChars "am".data l then some (false, l.drop 2)
  else if startsWithChars "pm".data l then some (true, l.drop 2)
  else none

/-- Length of a month, for the calendar validation `datetime` performs. -/
def daysInMonth (year month : Nat) : Nat :=
  if month = 2 then
    if year % 4 = 0 ∧ (year % 100 ≠ 0 ∨ year % 400 = 0) then 29 else 28
  else if month = 4 ∨ month = 6 ∨ month = 9 ∨ month = 11 then 30 else 31

/-- The `datetime` value produced by a successful parse (only the fields
the fixed format can set; seconds and below stay zero). -/
structure PyDateTime where
  year : Nat
  month : Nat
  day : Nat
  hour : Nat
  minute : Nat
deriving DecidableEq, Repr

/-- `datetime.strptime(s, securityfocus_date_format)` with
`securityfocus_date_format = "%b %d %Y %I:%M%p"`; `none` models the
`ValueError` raised when the text does not match. -/
def strptimeSecurityFocus (s : String) : Option PyDateTime := do
  let l0 := s.data.map Char.toLower
  let (month, l1) ← parseMonth l0
  let l2 ← parseWs1 l1
  let (day, l3) ← parseDay l2
  let l4 ← parseWs1 l3
  let (year, l5) ← parseYear4 l4
  let l6 ← parseWs1 l5
  let (hour12, l7) ← parseHour12 l6
  let l8 ← match l7 with
    | ':' :: rest => some rest
    | _ => none
  let (minute, l9) ← parseMinute l8
  let (pm, l10) ← parseAmPm l9
  if l10 = [] ∧ day ≤ daysInMonth year month ∧ 1 ≤ year then
    let hour := if pm then (if hour12 = 12 then 12 else hour12 + 12)
                else (if hour12 = 12 then 0 else hour12)
    pure ⟨year, month, day, hour, minute⟩
  else none

/-- `InfoTabParser.get_publication_date`: look up the `"Published:"` row
via `_parse_element`, then `datetime.strptime` the cell text with the
fixed format (`strptime(None, ...)` raises `TypeError`; a format
mismatch raises `ValueError`). -/
def get_publication_date (doc : InfoDoc) : Except PyError PyDateTime :=
  match parse_element doc "Published:" with
  | .error e => .error e
  | .ok none => .error .typeError
  | .ok (some s) =>
    match strptimeSecurityFocus s with
    | none => .error .valueError
    | some d => .ok d

/-- `InfoTabParser.get_last_update_date`: same as
`get_publication_date` but for the `"Updated:"` row. -/
def get_last_update_date (doc : InfoDoc) : Except PyError PyDateTime :=
  match parse_element doc "Updated:" with
  | .error e => .error e
  | .ok none => .error .typeError
  | .ok (some s) =>
    match strptimeSecurityFocus s with
    | none => .error .valueError
    | some d => .ok d

end OpenWebVulnDb

namespace OpenWebVulnDb

/-! ## Reference tab parser (`ReferenceTabParser`)

The reference tab's vulnerability section holds a `<ul>` whose list
items each contain an anchor.  `get_references` iterates the `<li>`
children of the first such `<ul>`; for each item, `li[0]` is the anchor,
`a_tag.text + a_tag.tail` builds the description (in lxml, `text` and
`tail` are `None` when absent, and `str + None` raises `TypeError`), and
`li.xpath('a/@href')[0]` is the url, resolved against the parser's base
url when it is relative and a base url was supplied. -/

/-- One `<li>` of the references list: the anchor's text node, the text
immediately following the anchor (its lxml `tail`), and its `href`. -/
structure RefListItem where
  aText : Option String
  aTail : Option String
  href : String
deriving DecidableEq, Repr

/-- One extracted reference. -/
structure Reference where
  description : String
  url : String
deriving DecidableEq, Repr

/-- Python `+` on two possibly-`None` strings: `str + None` and
`None + str` raise `TypeError`. -/
def pyStrAdd : Option String → Option String → Except PyError String
  | some a, some b => .ok (a ++ b)
  | _, _ => .error .typeError

/-- `ReferenceTabParser.get_references`: `isRel` embeds
`_is_relative_url` (`urlparse(url).netloc` empty) and `join` embeds
`urllib.parse.urljoin`; `base` is the parser's `self.url`. -/
def get_references (isRel : String → Bool) (join : String → String → String)
    (base : Option String) : List RefListItem → Except PyError (List Reference)
  | [] => .ok []
  | li :: rest => do
    let description ← pyStrAdd li.aText li.aTail
    let url := li.href
    let url := match base with
      | some b => if isRel url then join b url else url
      | none => url
    let refs ← get_references isRel join base rest
    pure ({ description := description, url := url } :: refs)

/-! ## Discussion / Exploit / Solution tab parsers

Each of these tabs holds one `<div id="vulnerability">`; the text lives
in the tails of the `<br>` children of that div.  We embed the div as
the list of its element children (tag name plus lxml tail). -/

/-- An element child of the vulnerability div: its tag and its tail
text (`none` when lxml reports no tail). -/
structure TabNode where
  tag : String
  tail : Option String
deriving DecidableEq, Repr

/-- Concatenation of the tails of the `br` children, in document order
(the accumulator loop shared by the three free-text parsers). -/
def accumulateBrTails : List TabNode → String
  | [] => ""
  | n :: rest =>
    if n.tag = "br" then
      match n.tail with
      | some t => t ++ accumulateBrTails rest
      | none => accumulateBrTails rest
    else accumulateBrTails rest

/-- `DiscussionTabParser.get_discussion`: accumulate the `br` tails and
normalize with `strip_whitespaces`; there is no `None` path. -/
def get_discussion (children : List TabNode) : String :=
  strip_whitespaces (accumulateBrTails children)

/-- The exploit tab's boilerplate sentinel phrase. -/
def exploitBoilerplate : String := "Currently, we are not aware of any working exploits."

/-- The solution tab's boilerplate sentinel phrase. -/
def solutionBoilerplate : String := "Currently we are not aware of any"

/-- The shared loop of `get_exploit_description` and `get_solution`: walk
the `br` children accumulating tails, but return `None` as soon as a
tail contains the boilerplate phrase. -/
def boilerplateLoop (phrase : String) : List TabNode → String → Option String
  | [], acc => some (strip_whitespaces acc)
  | n :: rest, acc =>
    if n.tag = "br" then
      match n.tail with
      | some t =>
        if containsSubstr phrase t then none
        else boilerplateLoop phrase rest (acc ++ t)
      | none => boilerplateLoop phrase rest acc
    else boilerplateLoop phrase rest acc

/-- `ExploitTabParser.get_exploit_description`. -/
def get_exploit_description (children : List TabNode) : Option String :=
  boilerplateLoop exploitBoilerplate children ""

/-- `SolutionTabParser.get_solution`. -/
def get_solution (children : List TabNode) : Option String :=
  boilerplateLoop solutionBoilerplate children ""

/-- Does some `br` child's tail contain the phrase?  (The condition under
which the claims say extraction short-circuits.) -/
def hasBoilerplate (phrase : String) (children : List TabNode) : Bool :=
  children.any fun n =>
    n.tag = "br" && (match n.tail with
      | some t => containsSubstr phrase t
      | none => false)

end OpenWebVulnDb

namespace OpenWebVulnDb

/-! ## Storage (`storage.py`)

`Storage` maps a logical key (a relative directory) plus a record kind
to a JSON file.  We embed: the `_read` failure policy over the abstract
schema collaborator (`schema.loads` returning `(data, errors)` or
raising `JSONDecodeError`); the `vuln-(\w+)\.json` filename filter of
`list_vulnerabilities`; the `known`-set memoization of `_prepare_path`;
and the error-discarding `_write`. -/

namespace Storage

/-- Outcome of the schema collaborator's `loads` on a file's content:
either the underlying `json.loads` raises `JSONDecodeError`, or a
`(data, errors)` pair is produced. -/
inductive LoadOutcome (α : Type) where
  | jsonDecodeError
  | decoded (data : α) (errors : List String)
deriving DecidableEq, Repr

/-- Observable outcome of `Storage._read`: either the call returns a
value (possibly `None`) having emitted the given critical-level log
lines, or it raises. -/
inductive ReadOutcome (α : Type) where
  | returned (value : Option α) (criticalLogs : List String)
  | raised (errors : List String)
deriving DecidableEq, Repr

/-- The critical diagnostic `_read` logs on malformed JSON. -/
def jsonDecodeLogLine : String := "JSON Decode error in %s"

/-- `Storage._read`: run `schema.loads` on the file content inside a
`try`; raise `Exception(*args, errors)` when `errors` is non-empty,
return the data otherwise; catch `JSONDecodeError`, log critically and
fall off the end (returning `None`). -/
def readStored {α : Type} (loads : String → LoadOutcome α) (content : String) :
    ReadOutcome α :=
  match loads content with
  | .jsonDecodeError => .returned none [jsonDecodeLogLine]
  | .decoded data errors =>
    if errors = [] then .returned (some data) [] else .raised errors

/-- `Storage.read_meta`: `_read` with the meta schema on the content of
`<key>/META.json`. -/
def read_meta {α : Type} (metaLoads : String → LoadOutcome α) (content : String) :
    ReadOutcome α :=
  readStored metaLoads content

/-- `Storage.read_vulnerabilities`: `_read` with the vulnerability-list
schema on the content of `<key>/vuln-<producer>.json`. -/
def read_vulnerabilities {α : Type} (vlistLoads : String → LoadOutcome α)
    (content : String) : ReadOutcome α :=
  readStored vlistLoads content

/-- `Storage.read_versions`: `_read` with the version-list schema on the
content of `<key>/versions.json`. -/
def read_versions {α : Type} (versionsLoads : String → LoadOutcome α)
    (content : String) : ReadOutcome α :=
  readStored versionsLoads content

/-- ASCII part of the regex class `\w`: letters, digits, underscore. -/
def isWordChar (c : Char) : Bool :=
  c.isAlpha || c.isDigit || c = '_'

/-- Full match of `^vuln-(\w+)\.json$` on a character list, returning
the captured group. -/
def vulnMatchChars (l : List Char) : Option (List Char) :=
  if startsWithChars "vuln-".data l then
    let rest := l.drop 5
    let w := rest.take (rest.length - 5)
    let suffix := rest.drop (rest.length - 5)
    if suffix = ".json".data ∧ w ≠ [] ∧ w.all isWordChar then some w else none
  else none

/-- Full match of `^vuln-(\w+)\.json$` on a filename, returning the
captured producer. -/
def vulnNameMatch (name : String) : Option String :=
  (vulnMatchChars name.data).map (fun w => ⟨w⟩)

/-- One entry of `scandir` on the key's directory. -/
structure DirEntry where
  name : String
  isDir : Bool
deriving DecidableEq, Repr

/-- `Storage.list_vulnerabilities`: for each directory entry whose name
matches `^vuln-(\w+)\.json$` and which is not a directory, yield
`read_vulnerabilities(key, producer)` (abstracted as `readVulns` applied
to the captured producer). -/
def list_vulnerabilities {α : Type} (readVulns : String → α) :
    List DirEntry → List α
  | [] => []
  | e :: rest =>
    match vulnNameMatch e.name with
    | some producer =>
      if e.isDir then list_vulnerabilities readVulns rest
      else readVulns producer :: list_vulnerabilities readVulns rest
    | none => list_vulnerabilities readVulns rest

/-- `os.path.dirname` (posix): everything up to the last `/`, with
trailing slashes stripped unless the head is all slashes. -/
def dirnameChars (p : List Char) : List Char :=
  let k := match p.reverse.findIdx? (fun c => c = '/') with
    | some k => k
    | none => p.length
  let head := p.take (p.length - k)
  if head ≠ [] ∧ ¬ head.all (fun c => c = '/') then rstripP (fun c => c = '/') head
  else head

/-- `os.path.dirname` on strings. -/
def dirname (s : String) : String :=
  ⟨dirnameChars s.data⟩

/-- The mutable state of a `Storage` instance that `_prepare_path`
touches: the memoization set `self.known` and, as the observable side
effect trace, the list of `makedirs` calls issued so far. -/
structure StorageState where
  known : List String
  created : List String
deriving DecidableEq, Repr

/-- A fresh `Storage` instance: `self.known = set()`, nothing created. -/
def initState : StorageState :=
  ⟨[], []⟩

/-- `Storage._prepare_path`: call `makedirs` (recorded on the `created`
trace) only when `relative` is not in `self.known`, then remember it. -/
def prepare_path (st : StorageState) (relative : String) : StorageState :=
  if relative ∈ st.known then st
  else { known := relative :: st.known, created := st.created ++ [relative] }

/-- The write-path operations of a `Storage` instance: `_write` (used by
`write_meta`, `write_vulnerabilities`, `write_versions`) prepares the
item's key; `append` prepares `dirname(relative)`. -/
inductive StorageOp where
  | writeOp (key : String)
  | appendOp (relative : String)
deriving DecidableEq, Repr

/-- The relative directory a write-path operation prepares. -/
def StorageOp.targetDir : StorageOp → String
  | .writeOp key => key
  | .appendOp relative => dirname relative

/-- Run a sequence of write/append operations, threading the instance
state through the `_prepare_path` each of them performs. -/
def runOps : StorageState → List StorageOp → StorageState
  | st, [] => st
  | st, op :: rest => runOps (prepare_path st op.targetDir) rest

/-- The files on disk, as an association from relative path to content
(later writes shadow earlier ones). -/
def FileMap : Type := List (String × String)

/-- Write (or overwrite) the file at `path`. -/
def setFile (fs : FileMap) (path content : String) : FileMap :=
  (path, content) :: fs

/-- Content of the file at `path`, if present. -/
def getFile : FileMap → String → Option String
  | [], _ => none
  | (p, c) :: rest, q => if p = q then some c else getFile rest q

/-- `Storage._write`: `data, errors = serialize(schema, item)` (the
`serialized` pair), then `_prepare_path(item.key)` and write `data` to
`<key>/<filename>` — the `errors` component is never consulted and
nothing is raised. -/
def writeStored (st : StorageState) (fs : FileMap)
    (serialized : String × List String) (key filename : String) :
    StorageState × FileMap :=
  let data := serialized.1
  let st' := prepare_path st key
  (st', setFile fs (key ++ "/" ++ filename) data)

/-- Python `str.lower()` (ASCII part). -/
def pyLower (s : String) : String :=
  ⟨s.data.map Char.toLower⟩

/-- `Storage.write_meta`: `_write(MetaSchema(), meta, 'META.json')`. -/
def write_meta (st : StorageState) (fs : FileMap)
    (serialized : String × List String) (key : String) : StorageState × FileMap :=
  writeStored st fs serialized key "META.json"

/-- `Storage.write_vulnerabilities`:
`_write(VulnerabilityListSchema(), vlist, 'vuln-%s.json' % vlist.producer.lower())`. -/
def write_vulnerabilities (st : StorageState) (fs : FileMap)
    (serialized : String × List String) (key producer : String) :
    StorageState × FileMap :=
  writeStored st fs serialized key ("vuln-" ++ pyLower producer ++ ".json")

/-- `Storage.write_versions`: `_write(VersionListSchema(), vlist, "versions.json")`. -/
def write_versions (st : StorageState) (fs : FileMap)
    (serialized : String × List String) (key : String) : StorageState × FileMap :=
  writeStored st fs serialized key "versions.json"

end Storage

end OpenWebVulnDb

namespace OpenWebVulnDb

/-! ## Claim theorems -/

/-- **C4**: `get_publication_date` and `get_last_update_date` parse the
looked-up cell text with the fixed format `"%b %d %Y %I:%M%p"`: the
input `"Sep 07 2016 12:00AM"` yields the timestamp 2016-09-07 00:00,
and text not matching the format (e.g. `"2016-09-07"`) raises (the
spec's ExtractionError category; a `ValueError` from `strptime`). -/
theorem dates_parse_with_fixed_format :
    get_publication_date [⟨"Published:", ["Sep 07 2016 12:00AM"]⟩] = .ok ⟨2016, 9, 7, 0, 0⟩ ∧
    get_publication_date [⟨"Published:", ["2016-09-07"]⟩] = .error .valueError ∧
    get_last_update_date [⟨"Updated:", ["Sep 07 2016 12:00AM"]⟩] = .ok ⟨2016, 9, 7, 0, 0⟩ ∧
    get_last_update_date [⟨"Updated:", ["2016-09-07"]⟩] = .error .valueError ∧
    strptimeSecurityFocus "Sep 07 2016 12:00AM" = some ⟨2016, 9, 7, 0, 0⟩ ∧
    strptimeSecurityFocus "2016-09-07" = none := by
  refine ⟨?_, ?_, ?_, ?_, ?_, ?_⟩ <;> decide

/-- **C2**: reads via `read_meta` / `read_vulnerabilities` /
`read_versions` all go through `_read`; when the content is malformed
JSON the read logs one critical diagnostic and returns no value without
raising, and when `loads` succeeds but reports non-empty `errors` the
read raises immediately. -/
theorem read_failure_policy {α : Type} (loads : String → Storage.LoadOutcome α)
    (content : String) :
    (Storage.read_meta loads content = Storage.readStored loads content ∧
     Storage.read_vulnerabilities loads content = Storage.readStored loads content ∧
     Storage.read_versions loads content = Storage.readStored loads content) ∧
    (loads content = .jsonDecodeError →
      Storage.readStored loads content =
        .returned none [Storage.jsonDecodeLogLine]) ∧
    (∀ (data : α) (errors : List String), loads content = .decoded data errors →
      errors ≠ [] → Storage.readStored loads content = .raised errors) := by
  refine ⟨⟨rfl, rfl, rfl⟩, ?_, ?_⟩
  · intro h
    simp [Storage.readStored, h]
  · intro data errors h hne
    simp [Storage.readStored, h, hne]

/-- **C2 witness**: a concrete malformed-JSON read returns `None` with a
critical log line, and a concrete schema-errors read raises. -/
theorem read_failure_policy_witness :
    Storage.readStored (fun _ => Storage.LoadOutcome.jsonDecodeError (α := Nat)) "bad json" =
      .returned none [Storage.jsonDecodeLogLine] ∧
    Storage.readStored (fun _ => Storage.LoadOutcome.decoded 0 ["schema error"]) "valid" =
      .raised ["schema error"] :=
  ⟨(read_failure_policy (fun _ => Storage.LoadOutcome.jsonDecodeError (α := Nat)) "bad json").2.1 rfl,
   (read_failure_policy (fun _ => Storage.LoadOutcome.decoded 0 ["schema error"]) "valid").2.2
     0 ["schema error"] rfl (by decide)⟩

/-- **C10**: every write (`write_meta`, `write_vulnerabilities`,
`write_versions`) discards the `errors` component of the serializer's
result: the outcome is identical for any `errors` value, and the
produced text is unconditionally written to the target file. -/
theorem write_discards_serializer_errors (st : Storage.StorageState)
    (fs : Storage.FileMap) (data : String) (errors : List String)
    (key producer : String) :
    (Storage.write_meta st fs (data, errors) key =
       Storage.write_meta st fs (data, []) key ∧
     Storage.getFile (Storage.write_meta st fs (data, errors) key).2
       (key ++ "/" ++ "META.json") = some data) ∧
    (Storage.write_vulnerabilities st fs (data, errors) key producer =
       Storage.write_vulnerabilities st fs (data, []) key producer ∧
     Storage.getFile (Storage.write_vulnerabilities st fs (data, errors) key producer).2
       (key ++ "/" ++ ("vuln-" ++ Storage.pyLower producer ++ ".json")) = some data) ∧
    (Storage.write_versions st fs (data, errors) key =
       Storage.write_versions st fs (data, []) key ∧
     Storage.getFile (Storage.write_versions st fs (data, errors) key).2
       (key ++ "/" ++ "versions.json") = some data) := by
  refine ⟨⟨rfl, ?_⟩, ⟨rfl, ?_⟩, ⟨rfl, ?_⟩⟩ <;>
    simp [Storage.write_meta, Storage.write_vulnerabilities, Storage.write_versions,
      Storage.writeStored, Storage.setFile, Storage.getFile]

end OpenWebVulnDb

namespace OpenWebVulnDb

/-- **C5 counterexample**: a references list item whose anchor has no
trailing text (lxml `tail` is `None`) makes `get_references` raise a
`TypeError` (`a_tag.text + a_tag.tail` with `None`), instead of
yielding a reference built from the anchor text alone. -/
theorem reference_without_trailing_text_raises :
    get_references (fun _ => false) (fun _ u => u) none
      [⟨some "WordPress HomePage", none, "http://wordpress.com/"⟩] =
      .error .typeError ∧
    get_references (fun _ => false) (fun _ u => u) none
      [⟨some "WordPress HomePage", none, "http://wordpress.com/"⟩] ≠
      .ok [⟨"WordPress HomePage", "http://wordpress.com/"⟩] := by
  refine ⟨by decide, by decide⟩

/-- **C5 amended**: when every list item's anchor has both a text node
and a trailing text fragment, `get_references` yields exactly one
reference per item in document order, with the description the
concatenation of the anchor's text and its trailing text, and the url
the anchor's href (a parser constructed without a base url never
rewrites it); an item whose anchor lacks trailing text raises instead. -/
theorem references_concatenate_text_and_tail (isRel : String → Bool)
    (join : String → String → String) (items : List (String × String × String)) :
    get_references isRel join none
      (items.map fun i => ⟨some i.1, some i.2.1, i.2.2⟩) =
      .ok (items.map fun i => ⟨i.1 ++ i.2.1, i.2.2⟩) := by
  induction items with
  | nil => rfl
  | cons i rest ih =>
    simp [get_references, pyStrAdd, ih]
    rfl

end OpenWebVulnDb

namespace OpenWebVulnDb

/-- A list of whitespace characters is fully dropped by `dropWhile`. -/
theorem dropWhile_all_ws (l : List Char) (h : l.all isPyWs = true) :
    l.dropWhile isPyWs = [] := by
  induction l with
  | nil => rfl
  | cons c rest ih =>
    simp only [List.all_cons, Bool.and_eq_true] at h
    simp [List.dropWhile, h.1, ih h.2]

/-- A list with a non-whitespace character survives `dropWhile` with a
non-whitespace head. -/
theorem dropWhile_not_all_ws (l : List Char) (h : l.all isPyWs = false) :
    ∃ c rest, l.dropWhile isPyWs = c :: rest ∧ isPyWs c = false := by
  induction l with
  | nil => simp at h
  | cons c rest ih =>
    by_cases hc : isPyWs c = true
    · simp only [List.all_cons, hc, Bool.true_and] at h
      obtain ⟨d, r, hd, hw⟩ := ih h
      exact ⟨d, r, by simp [List.dropWhile, hc, hd], hw⟩
    · replace hc := Bool.eq_false_iff.mpr hc
      exact ⟨c, rest, by simp [List.dropWhile, hc], hc⟩

/-- `rstripP` of a list with a head not satisfying `p` is non-empty. -/
theorem rstripP_cons_ne_nil (p : Char → Bool) (c : Char) (rest : List Char)
    (hc : p c = false) : rstripP p (c :: rest) ≠ [] := by
  simp only [rstripP]
  cases h : rstripP p rest with
  | nil => simp [hc]
  | cons d r => simp

/-- `_parse_element` strips to nothing exactly on all-whitespace text. -/
theorem pyStripList_nil_iff (l : List Char) :
    pyStripList l = [] ↔ l.all isPyWs = true := by
  constructor
  · intro h
    by_contra hall
    replace hall := Bool.eq_false_iff.mpr hall
    obtain ⟨c, rest, hd, hw⟩ := dropWhile_not_all_ws l hall
    exact rstripP_cons_ne_nil isPyWs c rest hw (by rwa [pyStripList, rstripWs, hd] at h)
  · intro h
    rw [pyStripList, dropWhile_all_ws l h]
    rfl

/-- **C1 amended**: the generic label lookup returns `None` when a
matching row exists and the first text node of its value cell is empty
after whitespace trimming; but when no matching text node exists (the
labeled row is missing, or its value cell holds no text at all) the
lookup raises an `IndexError` rather than returning `None`; a returned
value is never the empty string. -/
theorem parse_element_blank_vs_missing (doc : InfoDoc) (name : String) :
    (xpathLabelTexts doc name = [] → parse_element doc name = .error .indexError) ∧
    (∀ v rest, xpathLabelTexts doc name = v :: rest →
       (parse_element doc name = .ok none ↔ v.data.all isPyWs = true)) ∧
    (∀ s, parse_element doc name = .ok (some s) → s.data ≠ []) := by
  refine ⟨?_, ?_, ?_⟩
  · intro h
    simp [parse_element, h]
  · intro v rest h
    simp only [parse_element, h]
    by_cases hall : v.data.all isPyWs = true
    · have : (pyStrip v).data = [] := (pyStripList_nil_iff v.data).mpr hall
      simp [this, hall]
    · have hne : (pyStrip v).data ≠ [] := fun hh => hall ((pyStripList_nil_iff v.data).mp hh)
      have hlen : ¬(pyStrip v).length = 0 := fun hh => hne (List.length_eq_zero.mp hh)
      simp [hlen, hall, hne]
  · intro s hs
    revert hs
    unfold parse_element
    cases hx : xpathLabelTexts doc name with
    | nil => intro hs; exact absurd hs (by simp)
    | cons v rest =>
      simp only []
      by_cases hlen : (pyStrip v).data.length = 0
      · simp [hlen]
      · simp only [hlen, if_false]
        intro hs
        have : pyStrip v = s := by
          have := hs
          simp at this
          exact this
        rw [← this]
        exact fun hn => hlen (by simp [hn])

/-- **C1 counterexample**: on a document where the `"Credit:"` row is
missing, the generic label lookup raises `IndexError` instead of
returning `None`. -/
theorem parse_element_missing_row_raises :
    parse_element [⟨"Bugtraq ID:", ["92841"]⟩] "Credit:" = .error .indexError ∧
    parse_element [⟨"Bugtraq ID:", ["92841"]⟩] "Credit:" ≠ .ok none := by
  refine ⟨by decide, by decide⟩

/-- **C1 witness**: a present `"Remote:"` row whose cell text is
whitespace-only yields `None`. -/
theorem parse_element_blank_vs_missing_witness :
    parse_element [⟨"Remote:", [" \n "]⟩] "Remote:" = .ok none :=
  ((parse_element_blank_vs_missing [⟨"Remote:", [" \n "]⟩] "Remote:").2.1
    " \n " [] (by decide)).mpr (by decide)

end OpenWebVulnDb

namespace OpenWebVulnDb

/-- A list starts with its own prefix. -/
theorem startsWithChars_append (p t : List Char) :
    startsWithChars p (p ++ t) = true := by
  induction p with
  | nil => rfl
  | cons a as ih => simp [startsWithChars, ih]

/-- A successful prefix test decomposes the list. -/
theorem startsWithChars_decompose (p : List Char) :
    ∀ l : List Char, startsWithChars p l = true → l = p ++ l.drop p.length := by
  induction p with
  | nil => intro l _; rfl
  | cons a as ih =>
    intro l h
    cases l with
    | nil => simp [startsWithChars] at h
    | cons b bs =>
      simp only [startsWithChars, Bool.and_eq_true, decide_eq_true_eq] at h
      obtain ⟨rfl, h2⟩ := h
      exact congrArg (a :: ·) (ih bs h2)

/-- Soundness direction of the `^vuln-(\w+)\.json$` matcher: a filename
built from a non-empty word matches with that word captured. -/
theorem vulnMatchChars_mk (w : List Char) (h1 : w ≠ [])
    (h2 : w.all Storage.isWordChar = true) :
    Storage.vulnMatchChars ("vuln-".data ++ w ++ ".json".data) = some w := by
  unfold Storage.vulnMatchChars
  rw [List.append_assoc, startsWithChars_append]
  have hd : ("vuln-".data ++ (w ++ ".json".data)).drop 5 = w ++ ".json".data :=
    List.drop_left "vuln-".data (w ++ ".json".data)
  simp only [hd, if_true]
  have hlen : (w ++ ".json".data).length - 5 = w.length := by
    simp [List.length_append]
  have ht : (w ++ ".json".data).take ((w ++ ".json".data).length - 5) = w := by
    rw [hlen]
    exact List.take_left w ".json".data
  have hdd : (w ++ ".json".data).drop ((w ++ ".json".data).length - 5) = ".json".data := by
    rw [hlen]
    exact List.drop_left w ".json".data
  simp [ht, hdd, h1, h2]

/-- Completeness direction: any filename the matcher accepts decomposes
as `vuln-<word>.json` with the captured word non-empty and word-only. -/
theorem vulnMatchChars_some (l w : List Char)
    (h : Storage.vulnMatchChars l = some w) :
    l = "vuln-".data ++ w ++ ".json".data ∧ w ≠ [] ∧
      w.all Storage.isWordChar = true := by
  simp only [Storage.vulnMatchChars] at h
  split at h
  · split at h
    · rename_i hs hc
      obtain ⟨hsfx, hne, hall⟩ := hc
      have hw : (l.drop 5).take ((l.drop 5).length - 5) = w := Option.some.inj h
      have hrest : l.drop 5 = w ++ ".json".data := by
        have hjson : (".json".data : List Char) = ['.', 'j', 's', 'o', 'n'] := rfl
        rw [hjson, ← hw, ← hsfx]
        exact (List.take_append_drop _ _).symm
      have hl : l = "vuln-".data ++ l.drop 5 := by
        have h5 : l.drop 5 = l.drop (("vuln-".data : List Char).length) := rfl
        rw [h5]
        exact startsWithChars_decompose "vuln-".data l hs
      refine ⟨?_, ?_, ?_⟩
      · rw [hl, hrest, List.append_assoc]
      · rwa [hw] at hne
      · rwa [hw] at hall
    · exact absurd h (by simp)
  · exact absurd h (by simp)

/-- **C6**: `list_vulnerabilities` yields exactly one decoded entry per
non-directory entry whose name fully matches `vuln-<word>.json` (with
the producer captured from the filename) and nothing for any other
filename; in particular `vulnerabilities.json` does not match. -/
theorem list_vulnerabilities_filename_filter :
    (∀ w : String, w.data ≠ [] → w.data.all Storage.isWordChar = true →
       Storage.vulnNameMatch ("vuln-" ++ w ++ ".json") = some w) ∧
    (∀ name producer : String, Storage.vulnNameMatch name = some producer →
       name = "vuln-" ++ producer ++ ".json" ∧ producer.data ≠ [] ∧
       producer.data.all Storage.isWordChar = true) ∧
    Storage.vulnNameMatch "vulnerabilities.json" = none ∧
    (∀ (α : Type) (f : String → α) (entries : List Storage.DirEntry),
       Storage.list_vulnerabilities f entries =
         entries.filterMap fun e =>
           if e.isDir then none else (Storage.vulnNameMatch e.name).map f) := by
  refine ⟨?_, ?_, by decide, ?_⟩
  · intro w h1 h2
    unfold Storage.vulnNameMatch
    rw [show ("vuln-" ++ w ++ ".json" : String).data =
          "vuln-".data ++ w.data ++ ".json".data by simp [String.data_append]]
    rw [vulnMatchChars_mk w.data h1 h2]
    rfl
  · intro name producer h
    unfold Storage.vulnNameMatch at h
    rw [Option.map_eq_some'] at h
    obtain ⟨w, hw, hmk⟩ := h
    obtain ⟨hdec, hne, hall⟩ := vulnMatchChars_some name.data w hw
    have hwdata : w = producer.data := by
      rw [← hmk]
    refine ⟨?_, ?_, ?_⟩
    · apply String.ext
      rw [hdec, hwdata]
      simp [String.data_append]
    · rwa [← hwdata]
    · rwa [← hwdata]
  · intro α f entries
    induction entries with
    | nil => rfl
    | cons e rest ih =>
      cases hm : Storage.vulnNameMatch e.name with
      | none => simp [Storage.list_vulnerabilities, hm, List.filterMap_cons, ih]
      | some producer =>
        cases hd : e.isDir with
        | false => simp [Storage.list_vulnerabilities, hm, hd, List.filterMap_cons, ih]
        | true => simp [Storage.list_vulnerabilities, hm, hd, List.filterMap_cons, ih]

/-- **C6 witness**: the concrete filename `vuln-securityfocus.json`
matches with producer `securityfocus`. -/
theorem list_vulnerabilities_filename_filter_witness :
    Storage.vulnNameMatch "vuln-securityfocus.json" = some "securityfocus" := by
  have h := list_vulnerabilities_filename_filter.1 "securityfocus" (by decide) (by decide)
  have e : ("vuln-" ++ "securityfocus" ++ ".json" : String) = "vuln-securityfocus.json" := by
    decide
  rwa [e] at h

end OpenWebVulnDb

namespace OpenWebVulnDb

/-- Along any run of write/append operations, the `created` trace stays
duplicate-free and stays inside the `known` memoization set. -/
theorem runOps_created_nodup (ops : List Storage.StorageOp) :
    ∀ st : Storage.StorageState, (∀ q ∈ st.created, q ∈ st.known) →
      st.created.Nodup →
      ((Storage.runOps st ops).created.Nodup ∧
       ∀ q ∈ (Storage.runOps st ops).created, q ∈ (Storage.runOps st ops).known) := by
  induction ops with
  | nil =>
    intro st h1 h2
    exact ⟨h2, h1⟩
  | cons op rest ih =>
    intro st h1 h2
    simp only [Storage.runOps]
    by_cases hk : op.targetDir ∈ st.known
    · rw [show Storage.prepare_path st op.targetDir = st by
        simp [Storage.prepare_path, hk]]
      exact ih st h1 h2
    · rw [show Storage.prepare_path st op.targetDir =
          ⟨op.targetDir :: st.known, st.created ++ [op.targetDir]⟩ by
        simp [Storage.prepare_path, hk]]
      apply ih
      · intro q hq
        simp only [List.mem_append, List.mem_singleton] at hq
        rcases hq with hq | rfl
        · exact List.mem_cons_of_mem _ (h1 q hq)
        · exact List.mem_cons_self _ _
      · refine List.Nodup.append h2 (List.nodup_singleton _) ?_
        intro q hq hq'
        rw [List.mem_singleton] at hq'
        subst hq'
        exact hk (h1 _ hq)

/-- Membership in the `created` trace after a run: exactly the targeted
directories that were not already known at the start. -/
theorem runOps_created_mem (ops : List Storage.StorageOp) :
    ∀ (st : Storage.StorageState) (q : String),
      q ∈ (Storage.runOps st ops).created ↔
        q ∈ st.created ∨
          (q ∈ ops.map Storage.StorageOp.targetDir ∧ q ∉ st.known) := by
  induction ops with
  | nil =>
    intro st q
    simp [Storage.runOps]
  | cons op rest ih =>
    intro st q
    simp only [Storage.runOps, List.map_cons, List.mem_cons]
    by_cases hk : op.targetDir ∈ st.known
    · rw [show Storage.prepare_path st op.targetDir = st by
        simp [Storage.prepare_path, hk]]
      rw [ih st q]
      constructor
      · rintro (h | ⟨h1, h2⟩)
        · exact Or.inl h
        · exact Or.inr ⟨Or.inr h1, h2⟩
      · rintro (h | ⟨rfl | h1, h2⟩)
        · exact Or.inl h
        · exact absurd hk h2
        · exact Or.inr ⟨h1, h2⟩
    · rw [show Storage.prepare_path st op.targetDir =
          ⟨op.targetDir :: st.known, st.created ++ [op.targetDir]⟩ by
        simp [Storage.prepare_path, hk]]
      rw [ih _ q]
      simp only [List.mem_append, List.mem_singleton, List.mem_cons, not_or]
      constructor
      · rintro ((h | rfl | h0) | ⟨h1, h2⟩)
        · exact Or.inl h
        · exact Or.inr ⟨Or.inl rfl, hk⟩
        · exact absurd h0 (List.not_mem_nil _)
        · exact Or.inr ⟨Or.inr h1, h2.2⟩
      · rintro (h | ⟨rfl | h1, h2⟩)
        · exact Or.inl (Or.inl h)
        · exact Or.inl (Or.inr (Or.inl rfl))
        · by_cases hq : q = op.targetDir
          · exact Or.inl (Or.inr (Or.inl hq))
          · exact Or.inr ⟨h1, hq, h2⟩

/-- **C7**: over any sequence of write and append operations on a fresh
`Storage` instance, `makedirs` is invoked at most once per relative
directory (the `created` trace has no duplicates), and a directory is
created exactly when some operation targets it. -/
theorem directory_creation_at_most_once (ops : List Storage.StorageOp) :
    (Storage.runOps Storage.initState ops).created.Nodup ∧
    ∀ p, p ∈ (Storage.runOps Storage.initState ops).created ↔
      p ∈ ops.map Storage.StorageOp.targetDir := by
  constructor
  · exact (runOps_created_nodup ops Storage.initState
      (by intro q hq; simp [Storage.initState] at hq) (by simp [Storage.initState])).1
  · intro p
    rw [runOps_created_mem ops Storage.initState p]
    simp [Storage.initState]

end OpenWebVulnDb


namespace OpenWebVulnDb

/-- Step of the sentinel loop on a `br` child with a tail. -/
theorem boilerplateLoop_cons_br_some (phrase : String) (n : TabNode)
    (rest : List TabNode) (acc t : String) (htag : n.tag = "br")
    (ht : n.tail = some t) :
    boilerplateLoop phrase (n :: rest) acc =
      if containsSubstr phrase t then none
      else boilerplateLoop phrase rest (acc ++ t) := by
  simp [boilerplateLoop, htag, ht]

/-- Step of the sentinel loop on a `br` child without a tail. -/
theorem boilerplateLoop_cons_br_none (phrase : String) (n : TabNode)
    (rest : List TabNode) (acc : String) (htag : n.tag = "br")
    (ht : n.tail = none) :
    boilerplateLoop phrase (n :: rest) acc = boilerplateLoop phrase rest acc := by
  simp [boilerplateLoop, htag, ht]

/-- Step of the sentinel loop on a non-`br` child. -/
theorem boilerplateLoop_cons_other (phrase : String) (n : TabNode)
    (rest : List TabNode) (acc : String) (htag : ¬n.tag = "br") :
    boilerplateLoop phrase (n :: rest) acc = boilerplateLoop phrase rest acc := by
  simp [boilerplateLoop, htag]

/-- Step of the tail accumulator on a `br` child with a tail. -/
theorem accumulateBrTails_cons_br_some (n : TabNode) (rest : List TabNode)
    (t : String) (htag : n.tag = "br") (ht : n.tail = some t) :
    accumulateBrTails (n :: rest) = t ++ accumulateBrTails rest := by
  simp [accumulateBrTails, htag, ht]

/-- Step of the tail accumulator on a `br` child without a tail. -/
theorem accumulateBrTails_cons_br_none (n : TabNode) (rest : List TabNode)
    (htag : n.tag = "br") (ht : n.tail = none) :
    accumulateBrTails (n :: rest) = accumulateBrTails rest := by
  simp [accumulateBrTails, htag, ht]

/-- Step of the tail accumulator on a non-`br` child. -/
theorem accumulateBrTails_cons_other (n : TabNode) (rest : List TabNode)
    (htag : ¬n.tag = "br") :
    accumulateBrTails (n :: rest) = accumulateBrTails rest := by
  simp [accumulateBrTails, htag]

/-- Step of the sentinel test on a `br` child with a tail. -/
theorem hasBoilerplate_cons_br_some (phrase : String) (n : TabNode)
    (rest : List TabNode) (t : String) (htag : n.tag = "br")
    (ht : n.tail = some t) :
    hasBoilerplate phrase (n :: rest) =
      (containsSubstr phrase t || hasBoilerplate phrase rest) := by
  simp [hasBoilerplate, htag, ht]

/-- Step of the sentinel test on a `br` child without a tail. -/
theorem hasBoilerplate_cons_br_none (phrase : String) (n : TabNode)
    (rest : List TabNode) (htag : n.tag = "br") (ht : n.tail = none) :
    hasBoilerplate phrase (n :: rest) = hasBoilerplate phrase rest := by
  simp [hasBoilerplate, htag, ht]

/-- Step of the sentinel test on a non-`br` child. -/
theorem hasBoilerplate_cons_other (phrase : String) (n : TabNode)
    (rest : List TabNode) (htag : ¬n.tag = "br") :
    hasBoilerplate phrase (n :: rest) = hasBoilerplate phrase rest := by
  simp [hasBoilerplate, htag]

/-- The accumulator loop shared by exploit and solution extraction:
`None` exactly when some `br` tail contains the phrase, otherwise the
normalized concatenation of the accumulator and all `br` tails. -/
theorem boilerplateLoop_characterization (phrase : String) (children : List TabNode) :
    ∀ acc : String, boilerplateLoop phrase children acc =
      if hasBoilerplate phrase children then none
      else some (strip_whitespaces (acc ++ accumulateBrTails children)) := by
  induction children with
  | nil =>
    intro acc
    simp [boilerplateLoop, hasBoilerplate, accumulateBrTails, String.append_empty]
  | cons n rest ih =>
    intro acc
    by_cases htag : n.tag = "br"
    · cases ht : n.tail with
      | none =>
        rw [boilerplateLoop_cons_br_none phrase n rest acc htag ht,
          accumulateBrTails_cons_br_none n rest htag ht,
          hasBoilerplate_cons_br_none phrase n rest htag ht, ih acc]
      | some t =>
        rw [boilerplateLoop_cons_br_some phrase n rest acc t htag ht,
          accumulateBrTails_cons_br_some n rest t htag ht,
          hasBoilerplate_cons_br_some phrase n rest t htag ht]
        by_cases hc : containsSubstr phrase t = true
        · simp [hc]
        · replace hc := Bool.eq_false_iff.mpr hc
          rw [if_neg (by simp [hc]), ih (acc ++ t)]
          simp [hc, String.append_assoc]
    · rw [boilerplateLoop_cons_other phrase n rest acc htag,
        accumulateBrTails_cons_other n rest htag,
        hasBoilerplate_cons_other phrase n rest htag, ih acc]

/-- **C3**: `get_exploit_description` (resp. `get_solution`) returns
`None` exactly when some `br`-tail fragment contains its fixed
boilerplate phrase, and otherwise the normalized accumulated text;
`get_discussion` always returns the normalized (possibly empty) text
and has no `None` outcome. -/
theorem freetext_boilerplate_sentinel (children : List TabNode) :
    get_exploit_description children =
      (if hasBoilerplate exploitBoilerplate children then none
       else some (strip_whitespaces (accumulateBrTails children))) ∧
    get_solution children =
      (if hasBoilerplate solutionBoilerplate children then none
       else some (strip_whitespaces (accumulateBrTails children))) ∧
    get_discussion children = strip_whitespaces (accumulateBrTails children) := by
  refine ⟨?_, ?_, rfl⟩
  · rw [get_exploit_description, boilerplateLoop_characterization]
    rw [String.empty_append]
  · rw [get_solution, boilerplateLoop_characterization]
    rw [String.empty_append]

end OpenWebVulnDb

namespace OpenWebVulnDb

/-- Unfolding `noDoubleWs` one step. -/
theorem noDoubleWs_cons (a : Char) (l : List Char) :
    noDoubleWs (a :: l) = ((!isPyWs a || headNotWs l) && noDoubleWs l) := by
  cases l with
  | nil => simp [noDoubleWs, headNotWs]
  | cons b rest =>
    simp only [noDoubleWs, headNotWs]
    cases isPyWs a <;> cases isPyWs b <;> rfl

/-- `lastNotWs` ignores a head before a non-empty tail. -/
theorem lastNotWs_cons (c : Char) (l : List Char) (h : l ≠ []) :
    lastNotWs (c :: l) = lastNotWs l := by
  cases l with
  | nil => exact absurd rfl h
  | cons d rest => rfl

/-- `headNotWs` ignores an appended tail after a non-empty front. -/
theorem headNotWs_append (a b : List Char) (h : a ≠ []) :
    headNotWs (a ++ b) = headNotWs a := by
  cases a with
  | nil => exact absurd rfl h
  | cons c rest => rfl

/-- The in-run scanner resumes with a non-whitespace character. -/
theorem headNotWs_subAux_true (l : List Char) :
    headNotWs (subAux true l) = true := by
  induction l with
  | nil => rfl
  | cons c rest ih =>
    by_cases hc : isPyWs c = true
    · simpa [subAux, hc] using ih
    · replace hc := Bool.eq_false_iff.mpr hc
      simp [subAux, hc, headNotWs]

/-- The out-of-run scanner keeps a non-whitespace head. -/
theorem headNotWs_subAux_false (d : Char) (r : List Char)
    (hd : isPyWs d = false) : headNotWs (subAux false (d :: r)) = true := by
  rw [show subAux false (d :: r) = d :: subAux false r by
    cases r <;> simp [subAux, hd]]
  simp [headNotWs, hd]

/-- The `re.sub('\s\s+', ' ')` scanner never emits two adjacent
whitespace characters. -/
theorem noDoubleWs_subAux_bounded (n : Nat) :
    ∀ l : List Char, l.length ≤ n → ∀ b : Bool, noDoubleWs (subAux b l) = true := by
  induction n with
  | zero =>
    intro l hl b
    rw [List.length_eq_zero.mp (Nat.le_zero.mp hl)]
    cases b <;> rfl
  | succ n ihn =>
    intro l hl b
    cases l with
    | nil => cases b <;> rfl
    | cons c rest =>
      have hrest : rest.length ≤ n := Nat.le_of_succ_le_succ hl
      by_cases hc : isPyWs c = true
      · cases b with
        | true => simpa [subAux, hc] using ihn rest hrest true
        | false =>
          cases rest with
          | nil => simp [subAux, hc, noDoubleWs]
          | cons d rest' =>
            have hrest' : rest'.length ≤ n :=
              Nat.le_of_succ_le (by simpa using hrest)
            by_cases hd : isPyWs d = true
            · rw [show subAux false (c :: d :: rest') = ' ' :: subAux true rest' by
                simp [subAux, hc, hd]]
              rw [noDoubleWs_cons]
              simp [headNotWs_subAux_true, ihn rest' hrest' true]
            · replace hd := Bool.eq_false_iff.mpr hd
              rw [show subAux false (c :: d :: rest') = c :: subAux false (d :: rest') by
                simp [subAux, hc, hd]]
              rw [noDoubleWs_cons]
              simp [headNotWs_subAux_false d rest' hd, ihn (d :: rest') hrest false]
      · replace hc := Bool.eq_false_iff.mpr hc
        cases b with
        | true =>
          rw [show subAux true (c :: rest) = c :: subAux false rest by
            simp [subAux, hc]]
          rw [noDoubleWs_cons]
          simp [hc, ihn rest hrest false]
        | false =>
          rw [show subAux false (c :: rest) = c :: subAux false rest by
            cases rest <;> simp [subAux, hc]]
          rw [noDoubleWs_cons]
          simp [hc, ihn rest hrest false]

/-- The `re.sub` scanner output has no adjacent whitespace pair. -/
theorem noDoubleWs_subAux (l : List Char) (b : Bool) :
    noDoubleWs (subAux b l) = true :=
  noDoubleWs_subAux_bounded l.length l (Nat.le_refl _) b

/-- On input with no adjacent whitespace pair, the scanner is the
identity (no match of `\s\s+` exists). -/
theorem subAux_false_id (l : List Char) (h : noDoubleWs l = true) :
    subAux false l = l := by
  induction l with
  | nil => rfl
  | cons c rest ih =>
    rw [noDoubleWs_cons] at h
    simp only [Bool.and_eq_true, Bool.or_eq_true] at h
    obtain ⟨hhead, hrest⟩ := h
    by_cases hc : isPyWs c = true
    · cases rest with
      | nil => simp [subAux, hc]
      | cons d rest' =>
        have hd : isPyWs d = false := by
          rcases hhead with hnc | hh
          · rw [hc] at hnc; exact absurd hnc (by simp)
          · simpa [headNotWs] using hh
        rw [show subAux false (c :: d :: rest') = c :: subAux false (d :: rest') by
          simp [subAux, hc, hd]]
        rw [ih hrest]
    · replace hc := Bool.eq_false_iff.mpr hc
      rw [show subAux false (c :: rest) = c :: subAux false rest by
        cases rest <;> simp [subAux, hc]]
      rw [ih hrest]

/-- Dropping leading whitespace leaves a non-whitespace head. -/
theorem headNotWs_dropWhile (l : List Char) :
    headNotWs (l.dropWhile isPyWs) = true := by
  induction l with
  | nil => rfl
  | cons c rest ih =>
    by_cases hc : isPyWs c = true
    · simpa [List.dropWhile, hc] using ih
    · replace hc := Bool.eq_false_iff.mpr hc
      simp [List.dropWhile, hc, headNotWs]

/-- `dropWhile` preserves the no-adjacent-whitespace property. -/
theorem noDoubleWs_dropWhile (l : List Char) (h : noDoubleWs l = true) :
    noDoubleWs (l.dropWhile isPyWs) = true := by
  induction l with
  | nil => exact h
  | cons c rest ih =>
    rw [noDoubleWs_cons] at h
    simp only [Bool.and_eq_true] at h
    by_cases hc : isPyWs c = true
    · simpa [List.dropWhile, hc] using ih h.2
    · replace hc := Bool.eq_false_iff.mpr hc
      rw [List.dropWhile_cons_of_neg (by simp [hc])]
      rw [noDoubleWs_cons]
      simp [h.1, h.2]

/-- `rstripP` returns a front segment of its input. -/
theorem rstripP_front (p : Char → Bool) (l : List Char) :
    ∃ t, l = rstripP p l ++ t := by
  induction l with
  | nil => exact ⟨[], rfl⟩
  | cons c rest ih =>
    obtain ⟨t, ht⟩ := ih
    cases hr : rstripP p rest with
    | nil =>
      by_cases hc : p c = true
      · exact ⟨c :: rest, by simp [rstripP, hr, hc]⟩
      · replace hc := Bool.eq_false_iff.mpr hc
        refine ⟨t, ?_⟩
        rw [show rstripP p (c :: rest) = [c] by simp [rstripP, hr, hc]]
        rw [hr] at ht
        simpa using congrArg (c :: ·) ht
    | cons d r =>
      refine ⟨t, ?_⟩
      rw [show rstripP p (c :: rest) = c :: d :: r by simp [rstripP, hr]]
      rw [hr] at ht
      simpa using congrArg (c :: ·) ht

/-- A front segment of a no-adjacent-whitespace list keeps the
property. -/
theorem noDoubleWs_append_left (a b : List Char)
    (h : noDoubleWs (a ++ b) = true) : noDoubleWs a = true := by
  induction a with
  | nil => rfl
  | cons c rest ih =>
    rw [List.cons_append, noDoubleWs_cons] at h
    simp only [Bool.and_eq_true, Bool.or_eq_true] at h
    obtain ⟨hhead, hrest⟩ := h
    rw [noDoubleWs_cons]
    simp only [Bool.and_eq_true, Bool.or_eq_true]
    refine ⟨?_, ih hrest⟩
    rcases hhead with hnc | hh
    · exact Or.inl hnc
    · cases rest with
      | nil => exact Or.inr rfl
      | cons d r => exact Or.inr (by rwa [headNotWs_append (d :: r) b (by simp)] at hh)

/-- `rstripP` keeps a non-whitespace head. -/
theorem headNotWs_rstripP (p : Char → Bool) (l : List Char)
    (h : headNotWs l = true) : headNotWs (rstripP p l) = true := by
  obtain ⟨t, ht⟩ := rstripP_front p l
  cases hr : rstripP p l with
  | nil => rfl
  | cons c rest =>
    rw [hr] at ht
    rw [ht, headNotWs_append (c :: rest) t (by simp)] at h
    exact h

/-- `rstripP` keeps the no-adjacent-whitespace property. -/
theorem noDoubleWs_rstripP (p : Char → Bool) (l : List Char)
    (h : noDoubleWs l = true) : noDoubleWs (rstripP p l) = true := by
  obtain ⟨t, ht⟩ := rstripP_front p l
  rw [ht] at h
  exact noDoubleWs_append_left _ t h

/-- After stripping trailing whitespace, the last character is not
whitespace. -/
theorem lastNotWs_rstripWs (l : List Char) :
    lastNotWs (rstripWs l) = true := by
  rw [rstripWs]
  induction l with
  | nil => rfl
  | cons c rest ih =>
    cases hr : rstripP isPyWs rest with
    | nil =>
      by_cases hc : isPyWs c = true
      · simp [rstripP, hr, hc, lastNotWs]
      · replace hc := Bool.eq_false_iff.mpr hc
        simp [rstripP, hr, hc, lastNotWs]
    | cons d r =>
      rw [show rstripP isPyWs (c :: rest) = c :: d :: r by simp [rstripP, hr]]
      rw [lastNotWs_cons c (d :: r) (by simp)]
      rw [← hr]
      exact ih

/-- A list whose head is not whitespace is untouched by the lead
trim. -/
theorem dropWhile_id_of_headNotWs (l : List Char) (h : headNotWs l = true) :
    l.dropWhile isPyWs = l := by
  cases l with
  | nil => rfl
  | cons c rest =>
    simp only [headNotWs, Bool.not_eq_true'] at h
    exact List.dropWhile_cons_of_neg (by simp [h])

/-- A list whose last character is not whitespace is untouched by the
trailing trim. -/
theorem rstripWs_id_of_lastNotWs (l : List Char) (h : lastNotWs l = true) :
    rstripWs l = l := by
  rw [rstripWs]
  induction l with
  | nil => rfl
  | cons c rest ih =>
    cases rest with
    | nil =>
      simp only [lastNotWs, Bool.not_eq_true'] at h
      simp [rstripP, h]
    | cons d r =>
      rw [lastNotWs_cons c (d :: r) (by simp)] at h
      have hrec := ih h
      rw [show rstripP isPyWs (c :: d :: r) =
          match rstripP isPyWs (d :: r) with
          | [] => if isPyWs c then [] else [c]
          | rr => c :: rr from rfl]
      rw [hrec]

end OpenWebVulnDb

namespace OpenWebVulnDb

/-- One scanner step: the out-of-run scanner passes a non-whitespace
head through. -/
theorem subAux_false_nonws_cons (c : Char) (l : List Char)
    (hc : isPyWs c = false) : subAux false (c :: l) = c :: subAux false l := by
  cases l <;> simp [subAux, hc]

/-- One scanner step: the in-run scanner resumes on a non-whitespace
head. -/
theorem subAux_true_nonws_cons (c : Char) (l : List Char)
    (hc : isPyWs c = false) : subAux true (c :: l) = c :: subAux false l := by
  simp [subAux, hc]

/-- One scanner step: the in-run scanner consumes further whitespace
silently. -/
theorem subAux_true_ws_cons (c : Char) (l : List Char) (hc : isPyWs c = true) :
    subAux true (c :: l) = subAux true l := by
  simp [subAux, hc]

/-- One scanner step: on two adjacent whitespace characters the
out-of-run scanner emits one space and enters the run. -/
theorem subAux_false_ws_ws (c d : Char) (l : List Char) (hc : isPyWs c = true)
    (hd : isPyWs d = true) : subAux false (c :: d :: l) = ' ' :: subAux true l := by
  simp [subAux, hc, hd]

/-- One scanner step: a whitespace character followed by non-whitespace
is emitted unchanged (no `\s\s+` match starts there). -/
theorem subAux_false_ws_nonws (c d : Char) (l : List Char) (hc : isPyWs c = true)
    (hd : isPyWs d = false) :
    subAux false (c :: d :: l) = c :: subAux false (d :: l) := by
  simp [subAux, hc, hd]

/-- With a non-whitespace continuation, a lone leading whitespace
character is emitted unchanged by the out-of-run scanner. -/
theorem subAux_false_ws_cons (c : Char) (b : List Char) (hc : isPyWs c = true)
    (hb : headNotWs b = true) : subAux false (c :: b) = c :: subAux false b := by
  cases b with
  | nil => simp [subAux, hc]
  | cons x b' =>
    simp only [headNotWs, Bool.not_eq_true'] at hb
    exact subAux_false_ws_nonws c x b' hc hb

/-- Dropping the head before a non-empty tail preserves `lastNotWs`. -/
theorem lastNotWs_of_cons (c : Char) (l : List Char)
    (h : lastNotWs (c :: l) = true) : lastNotWs l = true := by
  cases l with
  | nil => rfl
  | cons d r => rwa [lastNotWs_cons c (d :: r) (by simp)] at h

/-- The in-run scanner consumes a whole whitespace segment silently and
then behaves as the out-of-run scanner on a non-whitespace head. -/
theorem subAux_true_ws_append (b : List Char) (hb : headNotWs b = true) :
    ∀ w : List Char, w.all isPyWs = true → subAux true (w ++ b) = subAux false b := by
  intro w
  induction w with
  | nil =>
    intro _
    rw [List.nil_append]
    cases b with
    | nil => rfl
    | cons x b' =>
      simp only [headNotWs, Bool.not_eq_true'] at hb
      rw [subAux_true_nonws_cons x b' hb, subAux_false_nonws_cons x b' hb]
  | cons c w' ih =>
    intro hall
    simp only [List.all_cons, Bool.and_eq_true] at hall
    rw [List.cons_append, subAux_true_ws_cons c (w' ++ b) hall.1]
    exact ih hall.2

/-- The scanner distributes over a split at a non-whitespace boundary:
a front segment ending in non-whitespace is processed independently of
what follows (bounded-length induction, both scanner states). -/
theorem subAux_append_split_bounded (r : List Char) (n : Nat) :
    ∀ a : List Char, a.length ≤ n → lastNotWs a = true →
      (subAux false (a ++ r) = subAux false a ++ subAux false r) ∧
      (a ≠ [] → subAux true (a ++ r) = subAux true a ++ subAux false r) := by
  induction n with
  | zero =>
    intro a ha _
    rw [List.length_eq_zero.mp (Nat.le_zero.mp ha)]
    exact ⟨by simp [show subAux false ([] : List Char) = [] from rfl],
      fun h => absurd rfl h⟩
  | succ n ihn =>
    intro a ha hl
    cases a with
    | nil =>
      exact ⟨by simp [show subAux false ([] : List Char) = [] from rfl],
        fun h => absurd rfl h⟩
    | cons c rest =>
      have hrest : rest.length ≤ n := Nat.le_of_succ_le_succ ha
      have hlrest : lastNotWs rest = true := lastNotWs_of_cons c rest hl
      constructor
      · by_cases hc : isPyWs c = true
        · cases rest with
          | nil => simp [lastNotWs, hc] at hl
          | cons d rest' =>
            by_cases hd : isPyWs d = true
            · have hlrest' : lastNotWs rest' = true := lastNotWs_of_cons d rest' hlrest
              have hne : rest' ≠ [] := by
                cases rest' with
                | nil => simp [lastNotWs, hd] at hlrest
                | cons e r2 => simp
              have hlen' : rest'.length ≤ n := Nat.le_of_succ_le (by simpa using hrest)
              rw [show (c :: d :: rest') ++ r = c :: d :: (rest' ++ r) by simp]
              rw [subAux_false_ws_ws c d (rest' ++ r) hc hd,
                subAux_false_ws_ws c d rest' hc hd]
              rw [(ihn rest' hlen' hlrest').2 hne]
              simp
            · replace hd := Bool.eq_false_iff.mpr hd
              rw [show (c :: d :: rest') ++ r = c :: d :: (rest' ++ r) by simp]
              rw [show c :: d :: (rest' ++ r) = c :: ((d :: rest') ++ r) by simp]
              rw [subAux_false_ws_cons c ((d :: rest') ++ r) hc
                (by rw [headNotWs_append (d :: rest') r (by simp)]; simp [headNotWs, hd])]
              rw [subAux_false_ws_nonws c d rest' hc hd]
              rw [(ihn (d :: rest') hrest hlrest).1]
              simp
        · replace hc := Bool.eq_false_iff.mpr hc
          rw [List.cons_append, subAux_false_nonws_cons c (rest ++ r) hc,
            subAux_false_nonws_cons c rest hc]
          rw [(ihn rest hrest hlrest).1]
          simp
      · intro _
        by_cases hc : isPyWs c = true
        · have hne : rest ≠ [] := by
            cases rest with
            | nil => simp [lastNotWs, hc] at hl
            | cons d r2 => simp
          rw [List.cons_append, subAux_true_ws_cons c (rest ++ r) hc,
            subAux_true_ws_cons c rest hc]
          exact (ihn rest hrest hlrest).2 hne
        · replace hc := Bool.eq_false_iff.mpr hc
          rw [List.cons_append, subAux_true_nonws_cons c (rest ++ r) hc,
            subAux_true_nonws_cons c rest hc]
          rw [(ihn rest hrest hlrest).1]
          simp

/-- The scanner distributes over a split after non-whitespace. -/
theorem subAux_false_append_split (a r : List Char) (hla : lastNotWs a = true) :
    subAux false (a ++ r) = subAux false a ++ subAux false r :=
  (subAux_append_split_bounded r a.length a (Nat.le_refl _) hla).1

/-- A maximal interior whitespace run of length at least two (delimited
by non-whitespace on both sides, or by either end of the string) is
replaced by exactly one space. -/
theorem subWsWs_collapse_run (a w b : List Char) (hw : w.all isPyWs = true)
    (hlen : 2 ≤ w.length) (hla : lastNotWs a = true) (hhb : headNotWs b = true) :
    subWsWs (a ++ w ++ b) = subWsWs a ++ ' ' :: subWsWs b := by
  cases w with
  | nil => simp at hlen
  | cons c w1 =>
    cases w1 with
    | nil => simp at hlen
    | cons d w' =>
      simp only [List.all_cons, Bool.and_eq_true] at hw
      rw [subWsWs, subWsWs, subWsWs, List.append_assoc]
      rw [subAux_false_append_split a ((c :: d :: w') ++ b) hla]
      rw [show (c :: d :: w') ++ b = c :: d :: (w' ++ b) by simp]
      rw [subAux_false_ws_ws c d (w' ++ b) hw.1 hw.2.1]
      rw [subAux_true_ws_append b hhb w' hw.2.2]

/-- A lone interior whitespace character (delimited by non-whitespace
on both sides, or by either end) is emitted unchanged. -/
theorem subWsWs_single_ws (a b : List Char) (c : Char) (hc : isPyWs c = true)
    (hla : lastNotWs a = true) (hhb : headNotWs b = true) :
    subWsWs (a ++ c :: b) = subWsWs a ++ c :: subWsWs b := by
  rw [subWsWs, subWsWs, subWsWs]
  rw [subAux_false_append_split a (c :: b) hla]
  rw [subAux_false_ws_cons c b hc hhb]

/-- **C8 counterexample**: a single newline between two words is NOT
collapsed to a space by `strip_whitespaces` (the pattern `\s\s+` needs
at least two whitespace characters), while the claimed normalization
(`specNormalizeWs`, collapsing any run) would produce a space. -/
theorem strip_whitespaces_single_ws_not_collapsed :
    strip_whitespaces "a\nb" = "a\nb" ∧
    specNormalizeWs "a\nb" = "a b" ∧
    strip_whitespaces "a\nb" ≠ specNormalizeWs "a\nb" := by
  refine ⟨by decide, by decide, by decide⟩

/-- **C8 amended**: `strip_whitespaces` replaces every maximal run of
two or more whitespace characters — delimited by non-whitespace on each
side or by an end of the string — with exactly one space, emits a lone
whitespace character unchanged (not replaced by a space), and removes
leading and trailing whitespace.  Stated compositionally over the
substitution pass (`subWsWs`, which `strip_whitespaces` follows with the
trim, conjunct one): a ≥2 whitespace run between non-whitespace-ending
`a` and non-whitespace-starting `b` becomes one space (conjunct two); a
single whitespace character there is preserved (conjunct three); the
result never starts or ends with whitespace and has no two adjacent
whitespace characters (conjunct four); and an already-normal string is
returned unchanged (conjunct five). -/
theorem strip_whitespaces_collapse_properties (s : String) (a w b : List Char) :
    strip_whitespaces s = pyStrip ⟨subWsWs s.data⟩ ∧
    (w.all isPyWs = true → 2 ≤ w.length → lastNotWs a = true →
      headNotWs b = true →
      subWsWs (a ++ w ++ b) = subWsWs a ++ ' ' :: subWsWs b) ∧
    (∀ c : Char, isPyWs c = true → lastNotWs a = true → headNotWs b = true →
      subWsWs (a ++ c :: b) = subWsWs a ++ c :: subWsWs b) ∧
    (headNotWs (strip_whitespaces s).data = true ∧
     lastNotWs (strip_whitespaces s).data = true ∧
     noDoubleWs (strip_whitespaces s).data = true) ∧
    (headNotWs s.data = true → lastNotWs s.data = true →
      noDoubleWs s.data = true → strip_whitespaces s = s) := by
  have hdata : (strip_whitespaces s).data =
      rstripP isPyWs ((subAux false s.data).dropWhile isPyWs) := rfl
  refine ⟨rfl, ?_, ?_, ⟨?_, ?_, ?_⟩, ?_⟩
  · intro hw hlen hla hhb
    exact subWsWs_collapse_run a w b hw hlen hla hhb
  · intro c hc hla hhb
    exact subWsWs_single_ws a b c hc hla hhb
  · rw [hdata]
    exact headNotWs_rstripP isPyWs _ (headNotWs_dropWhile _)
  · rw [hdata]
    exact lastNotWs_rstripWs _
  · rw [hdata]
    exact noDoubleWs_rstripP isPyWs _
      (noDoubleWs_dropWhile _ (noDoubleWs_subAux s.data false))
  · intro h1 h2 h3
    apply String.ext
    rw [hdata]
    rw [show subAux false s.data = s.data from subAux_false_id s.data h3]
    rw [dropWhile_id_of_headNotWs s.data h1]
    exact rstripWs_id_of_lastNotWs s.data h2

/-- **C8 witness**: concrete instances — the two-character run in
`"a \tb"` collapses to one space, the lone tab in `"a\tb"` survives
both in the substitution pass and through the whole function. -/
theorem strip_whitespaces_collapse_properties_witness :
    subWsWs (['a'] ++ [' ', '\t'] ++ ['b']) = ['a', ' ', 'b'] ∧
    strip_whitespaces "a \tb" = "a b" ∧
    subWsWs (['a'] ++ '\t' :: ['b']) = ['a', '\t', 'b'] ∧
    strip_whitespaces "a\tb" = "a\tb" :=
  ⟨((strip_whitespaces_collapse_properties "" ['a'] [' ', '\t'] ['b']).2.1
      (by decide) (by decide) (by decide) (by decide)).trans (by decide),
   by decide,
   ((strip_whitespaces_collapse_properties "" ['a'] [' ', '\t'] ['b']).2.2.1 '\t'
      (by decide) (by decide) (by decide)).trans (by decide),
   (strip_whitespaces_collapse_properties "a\tb" [] [] []).2.2.2.2
      (by decide) (by decide) (by decide)⟩

/-- **C9**: free-text normalization is idempotent —
`strip_whitespaces (strip_whitespaces s) = strip_whitespaces s` for
every string `s`. -/
theorem strip_whitespaces_idempotent (s : String) :
    strip_whitespaces (strip_whitespaces s) = strip_whitespaces s := by
  have hdata : (strip_whitespaces s).data =
      rstripP isPyWs ((subAux false s.data).dropWhile isPyWs) := rfl
  have h1 : headNotWs (strip_whitespaces s).data = true := by
    rw [hdata]
    exact headNotWs_rstripP isPyWs _ (headNotWs_dropWhile _)
  have h2 : lastNotWs (strip_whitespaces s).data = true := by
    rw [hdata]
    exact lastNotWs_rstripWs _
  have h3 : noDoubleWs (strip_whitespaces s).data = true := by
    rw [hdata]
    exact noDoubleWs_rstripP isPyWs _
      (noDoubleWs_dropWhile _ (noDoubleWs_subAux s.data false))
  apply String.ext
  show rstripP isPyWs ((subAux false (strip_whitespaces s).data).dropWhile isPyWs) =
    (strip_whitespaces s).data
  rw [show subAux false (strip_whitespaces s).data = (strip_whitespaces s).data from
    subAux_false_id _ h3]
  rw [dropWhile_id_of_headNotWs _ h1]
  exact rstripWs_id_of_lastNotWs _ h2

end OpenWebVulnDb
